import Mathlib

/-!
Verification of the analysis utility library in
`include/triton/Analysis/Utility.h`.

The development shallowly embeds the numeric helpers (`product`, `ceil`,
`reorder`, `highestPowOf2Divisor`), the `ReduceOpHelper` constructor, and
the `CallGraph<T>` template (its `build`-produced edge structure, the
`walk`/`doWalk` traversal with node and edge hooks, and
`topologicalSort`/`doTopologicalSort`) and proves the specified
properties about them.

Functions are translated directly from the source.  Machine-word
behaviour is modelled with `Nat`/`Int`; the bit-level helper
`highestPowOf2Divisor` is modelled on `B`-bit values, with the C++
`~x` complement rendered as `2 ^ B - 1 - x`.  The recursive call-graph
traversals, whose C++ recursion terminates only on acyclic graphs, are
modelled with an explicit fuel parameter; running out of fuel yields
`none`.
-/

namespace TritonAnalysis

/-! ## Numeric helpers (`Utility.h`, free functions) -/

/-- `template <typename Int> Int product(llvm::ArrayRef<Int> arr)`:
`std::accumulate(arr.begin(), arr.end(), 1, std::multiplies{})`,
a left fold of multiplication starting from 1. -/
def product (xs : List Int) : Int :=
  xs.foldl (· * ·) 1

/-- `template <typename Int> Int ceil(Int m, Int n) { return (m + n - 1) / n; }`
with C++ signed division (truncation toward zero, `Int.tdiv`). -/
def ceil (m n : Int) : Int :=
  Int.tdiv (m + n - 1) n

/-- `reorder(input, order)`: `result[i] = input[order[i]]`, the source
asserts `input.size() == order.size()` and indexes `input` at each entry
of `order`.  Out-of-range indexing (excluded by the permutation
precondition) is modelled with `List.getD`. -/
def reorder {α : Type} [Inhabited α] (input : List α) (order : List Nat) :
    List α :=
  order.map (fun j => input.getD j default)

/-- `template <typename T> T highestPowOf2Divisor(T n)` on a `B`-bit
integer type: `if (n == 0) return 1 << (sizeof(T) * 8 - 2);
return n & (~(n - 1));` where `~x` on `B` bits is `2 ^ B - 1 - x`. -/
def highestPowOf2Divisor (B n : Nat) : Nat :=
  if n = 0 then 2 ^ (B - 2)
  else n &&& (2 ^ B - 1 - (n - 1))

/-! ## Theorems for the numeric helpers -/

/-- C6: for every integer sequence `xs`, `product xs` is the ordered
product of its elements, and `product []` is the multiplicative
identity `1`. -/
theorem product_spec (xs : List Int) :
    product xs = xs.prod ∧ product ([] : List Int) = 1 := by
  constructor
  · rw [product, List.prod_eq_foldl]
  · rfl

/-- C9: for `0 ≤ m` and `0 < n`, `ceil m n` is the ceiling of `m / n`:
`ceil m n * n ≥ m` and `m > (ceil m n - 1) * n`. -/
theorem ceil_spec (m n : Int) (hm : 0 ≤ m) (hn : 0 < n) :
    ceil m n * n ≥ m ∧ m > (ceil m n - 1) * n := by
  have hnum : 0 ≤ m + n - 1 := by omega
  have htd : Int.tdiv (m + n - 1) n = (m + n - 1) / n := by
    rw [← Int.toNat_of_nonneg hnum, ← Int.toNat_of_nonneg hn.le,
      ← Int.ofNat_tdiv, Int.ofNat_ediv]
  have hup : m + n - 1 < ((m + n - 1) / n + 1) * n :=
    Int.lt_ediv_add_one_mul_self (m + n - 1) hn
  have hlo : (m + n - 1) / n * n ≤ m + n - 1 :=
    Int.ediv_mul_le (m + n - 1) (by omega)
  have hup' : m + n - 1 < (m + n - 1) / n * n + n := by nlinarith [hup]
  constructor
  · rw [ceil, htd]; nlinarith [hup']
  · rw [ceil, htd]; nlinarith [hlo]

theorem ceil_spec_witness : ceil 7 3 * 3 ≥ 7 ∧ (7 : Int) > (ceil 7 3 - 1) * 3 :=
  ceil_spec 7 3 (by decide) (by decide)

/-- Pointwise behaviour of `reorder`: the element at position `i` is
`input[order[i]]`. -/
theorem reorder_getElem {α : Type} [Inhabited α] (input : List α)
    (order : List Nat) (i : Nat) (h : i < order.length)
    (hb : i < (reorder input order).length) :
    (reorder input order)[i] = input.getD (order[i]) default := by
  simp [reorder]

/-- C8: applying `reorder` with a permutation `σ` of `[0, k)` and then
with its inverse `τ` restores the original sequence of length `k`. -/
theorem reorder_involution {α : Type} [Inhabited α] (k : Nat)
    (σ τ : List Nat) (x : List α)
    (hx : x.length = k) (hσ : σ.length = k) (hτ : τ.length = k)
    (hσk : ∀ i, i < k → σ.getD i 0 < k)
    (hτk : ∀ i, i < k → τ.getD i 0 < k)
    (hinv : ∀ i, i < k → σ.getD (τ.getD i 0) 0 = i) :
    reorder (reorder x σ) τ = x := by
  have hlen1 : (reorder x σ).length = k := by simp [reorder, hσ]
  have hlen2 : (reorder (reorder x σ) τ).length = k := by simp [reorder, hτ]
  apply List.ext_getElem (by rw [hlen2, hx])
  intro n h1 h2
  have hn : n < k := by rwa [hlen2] at h1
  have hτn : n < τ.length := by rwa [hτ]
  rw [reorder_getElem (reorder x σ) τ n hτn (by simpa [reorder] using hτn)]
  rw [show τ[n] = τ.getD n 0 from (List.getD_eq_getElem τ 0 hτn).symm]
  have hτk' : τ.getD n 0 < (reorder x σ).length := by
    rw [hlen1]; exact hτk n hn
  rw [List.getD_eq_getElem (reorder x σ) default hτk']
  have hτσ : τ.getD n 0 < σ.length := by rw [hσ]; exact hτk n hn
  rw [reorder_getElem x σ (τ.getD n 0) hτσ (by simpa [reorder] using hτσ)]
  rw [show σ[τ.getD n 0] = σ.getD (τ.getD n 0) 0 from
    (List.getD_eq_getElem σ 0 hτσ).symm]
  rw [hinv n hn]
  exact List.getD_eq_getElem x default h2

theorem reorder_involution_witness :
    reorder (reorder [(10 : Int), 20, 30] [2, 0, 1]) [1, 2, 0] =
      [(10 : Int), 20, 30] :=
  reorder_involution 3 [2, 0, 1] [1, 2, 0] [(10 : Int), 20, 30]
    (by decide) (by decide) (by decide)
    (by decide) (by decide) (by decide)

/-- A number and its `M`-bit complement share no set bit. -/
theorem land_mask_self : ∀ M a : Nat, a ≤ 2 ^ M - 1 →
    a &&& (2 ^ M - 1 - a) = 0 := by
  intro M
  induction M with
  | zero =>
    intro a ha
    have : a = 0 := by simpa using ha
    subst this
    rfl
  | succ M ih =>
    intro a ha
    apply Nat.eq_of_testBit_eq
    intro i
    rw [Nat.zero_testBit, Nat.testBit_land]
    have h2 : 2 ^ (M + 1) = 2 * 2 ^ M := by ring
    have hpos : 0 < 2 ^ M := Nat.two_pow_pos M
    cases i with
    | zero =>
      rw [Nat.testBit_zero, Nat.testBit_zero]
      have : a % 2 = 0 ∨ (2 ^ (M + 1) - 1 - a) % 2 = 0 := by omega
      rcases this with h | h <;> simp [h]
    | succ i =>
      rw [Nat.testBit_succ, Nat.testBit_succ]
      have hdiv : (2 ^ (M + 1) - 1 - a) / 2 = 2 ^ M - 1 - a / 2 := by omega
      have hle : a / 2 ≤ 2 ^ M - 1 := by omega
      rw [hdiv]
      have h0 := congrArg (fun y => y.testBit i) (ih (a / 2) hle)
      simp only [Nat.testBit_land, Nat.zero_testBit] at h0
      exact h0

/-- For odd `n < 2 ^ B`, `n &&& (2 ^ B - n) = 1`. -/
theorem land_twoPow_sub_odd (B n : Nat) (hodd : n % 2 = 1)
    (hlt : n < 2 ^ B) : n &&& (2 ^ B - n) = 1 := by
  have hB : 1 ≤ B := by
    by_contra h
    have : B = 0 := by omega
    subst this
    simp at hlt
    omega
  have h2 : 2 ^ B = 2 * 2 ^ (B - 1) := by
    rw [← pow_succ']
    congr 1
    omega
  have hpos : 0 < 2 ^ (B - 1) := Nat.two_pow_pos (B - 1)
  apply Nat.eq_of_testBit_eq
  intro i
  rw [Nat.testBit_land]
  cases i with
  | zero =>
    rw [Nat.testBit_zero, Nat.testBit_zero]
    have hb : (2 ^ B - n) % 2 = 1 := by omega
    simp [hodd, hb]
  | succ i =>
    rw [Nat.testBit_succ, Nat.testBit_succ, Nat.testBit_succ]
    have h1 : (1 : Nat) / 2 = 0 := by norm_num
    rw [h1, Nat.zero_testBit]
    have hdiv : (2 ^ B - n) / 2 = 2 ^ (B - 1) - 1 - n / 2 := by omega
    have hle : n / 2 ≤ 2 ^ (B - 1) - 1 := by omega
    rw [hdiv]
    have h0 := congrArg (fun y => y.testBit i) (land_mask_self (B - 1) (n / 2) hle)
    simp only [Nat.testBit_land, Nat.zero_testBit] at h0
    exact h0

/-- For even `2 * m < 2 ^ B`, the lowest-set-bit computation factors
through one halving step. -/
theorem land_twoPow_sub_even (B m : Nat) (hm : 0 < m)
    (hlt : 2 * m < 2 ^ B) :
    (2 * m) &&& (2 ^ B - 2 * m) = 2 * (m &&& (2 ^ (B - 1) - m)) := by
  have hB : 1 ≤ B := by
    by_contra h
    have : B = 0 := by omega
    subst this
    simp at hlt
    omega
  have h2 : 2 ^ B = 2 * 2 ^ (B - 1) := by
    rw [← pow_succ']
    congr 1
    omega
  apply Nat.eq_of_testBit_eq
  intro i
  rw [Nat.testBit_land]
  cases i with
  | zero =>
    rw [Nat.testBit_zero, Nat.testBit_zero, Nat.testBit_zero]
    simp [Nat.mul_mod_right]
  | succ i =>
    rw [Nat.testBit_succ, Nat.testBit_succ, Nat.testBit_succ]
    have ha : 2 * m / 2 = m := by omega
    have hb : (2 ^ B - 2 * m) / 2 = 2 ^ (B - 1) - m := by omega
    have hc : 2 * (m &&& (2 ^ (B - 1) - m)) / 2 = m &&& (2 ^ (B - 1) - m) := by
      omega
    rw [ha, hb, hc, Nat.testBit_land]

/-- The lowest set bit of a positive `B`-bit number is a power of two
dividing it exactly once more than any other power of two. -/
theorem highestPow_aux : ∀ n B : Nat, 0 < n → n < 2 ^ B →
    ∃ k, n &&& (2 ^ B - n) = 2 ^ k ∧ 2 ^ k ∣ n ∧ ¬ (2 ^ (k + 1) ∣ n) := by
  intro n
  induction n using Nat.strong_induction_on with
  | _ n ih =>
    intro B hn hlt
    rcases Nat.even_or_odd n with he | ho
    · obtain ⟨m, hm⟩ := he
      have hmn : n = 2 * m := by omega
      have hm0 : 0 < m := by omega
      have hmlt : m < n := by omega
      have hB : 1 ≤ B := by
        by_contra h
        have : B = 0 := by omega
        subst this
        simp at hlt
        omega
      have h2 : 2 ^ B = 2 * 2 ^ (B - 1) := by
        rw [← pow_succ']
        congr 1
        omega
      have hmlt' : m < 2 ^ (B - 1) := by omega
      obtain ⟨k, hk1, hk2, hk3⟩ := ih m hmlt (B - 1) hm0 hmlt'
      refine ⟨k + 1, ?_, ?_, ?_⟩
      · rw [hmn, land_twoPow_sub_even B m hm0 (by omega), hk1, pow_succ,
          Nat.mul_comm]
      · rw [hmn, pow_succ, Nat.mul_comm]
        exact Nat.mul_dvd_mul_left 2 hk2
      · intro hdvd
        apply hk3
        rw [hmn] at hdvd
        rw [show (2 : Nat) ^ (k + 1 + 1) = 2 * 2 ^ (k + 1) by ring] at hdvd
        exact (Nat.mul_dvd_mul_iff_left (by norm_num : (0 : Nat) < 2)).mp hdvd
    · have hodd : n % 2 = 1 := Nat.odd_iff.mp ho
      refine ⟨0, ?_, Nat.one_dvd n, ?_⟩
      · rw [land_twoPow_sub_odd B n hodd hlt, pow_zero]
      · intro hdvd
        rw [pow_one] at hdvd
        omega

/-- C7: for `0 < n < 2 ^ B`, `highestPowOf2Divisor B n` is a power of
two dividing `n` whose double does not divide `n`; at `n = 0` it
returns `2 ^ (B - 2)`. -/
theorem highestPowOf2Divisor_spec (B n : Nat) (hn : 0 < n)
    (hlt : n < 2 ^ B) :
    (∃ k, highestPowOf2Divisor B n = 2 ^ k) ∧
    highestPowOf2Divisor B n ∣ n ∧
    ¬ (2 * highestPowOf2Divisor B n ∣ n) ∧
    highestPowOf2Divisor B 0 = 2 ^ (B - 2) := by
  have hdef : highestPowOf2Divisor B n = n &&& (2 ^ B - n) := by
    rw [highestPowOf2Divisor, if_neg (by omega)]
    congr 1
    omega
  obtain ⟨k, h1, h2, h3⟩ := highestPow_aux n B hn hlt
  refine ⟨⟨k, by rw [hdef, h1]⟩, by rw [hdef, h1]; exact h2, ?_,
    by simp [highestPowOf2Divisor]⟩
  rw [hdef, h1]
  intro hdvd
  apply h3
  rw [pow_succ]
  rwa [Nat.mul_comm] at hdvd

theorem highestPowOf2Divisor_spec_witness :
    (∃ k, highestPowOf2Divisor 32 12 = 2 ^ k) ∧
    highestPowOf2Divisor 32 12 ∣ 12 ∧
    ¬ (2 * highestPowOf2Divisor 32 12 ∣ 12) ∧
    highestPowOf2Divisor 32 0 = 2 ^ 30 :=
  highestPowOf2Divisor_spec 32 12 (by decide) (by norm_num)

/-! ## ReduceOpHelper construction (`ReduceOpHelper::ReduceOpHelper`) -/

/-- A ranked tensor type as far as the constructor inspects it: a shape
and an (opaque, compared-by-identity) encoding attribute. -/
structure TensorTy where
  shape : List Int
  encoding : Nat
deriving DecidableEq

/-- The two diagnostics the constructor can emit per operand. -/
inductive Diag where
  | shapeMismatch : Diag
  | encodingMismatch : Diag
deriving DecidableEq

/-- The state `ReduceOpHelper` captures at construction. -/
structure ReduceOpHelperState where
  srcShape : List Int
  srcEncoding : Nat
  srcElementTypes : List Nat
  axis : Nat
deriving DecidableEq

/-- The diagnostics emitted by the constructor loop
`for (const auto &t : rop.getInputTypes())`: one `shape mismatch` error
when `t.getShape() != srcShape` and one `encoding mismatch` error when
`t.getEncoding() != srcEncoding`.  `t0` is the first operand's type;
the loop runs over all input types, the first included. -/
def constructorDiags (t0 : TensorTy) (inputTys : List TensorTy) : List Diag :=
  inputTys.flatMap fun t =>
    (if t.shape ≠ t0.shape then [Diag.shapeMismatch] else []) ++
    (if t.encoding ≠ t0.encoding then [Diag.encodingMismatch] else [])

/-- `ReduceOpHelper(triton::ReduceOp)`: reads the first operand's type
(`t0`), stores its shape and encoding together with the element types
and the axis, and emits the mismatch diagnostics; construction always
completes and returns the helper state. -/
def mkReduceOpHelper (axis : Nat) (elemTys : List Nat) (t0 : TensorTy)
    (restTys : List TensorTy) : ReduceOpHelperState × List Diag :=
  (⟨t0.shape, t0.encoding, elemTys, axis⟩,
    constructorDiags t0 (t0 :: restTys))

/-- Counting diagnostics of one kind over the constructor loop. -/
theorem constructorDiags_count (t0 : TensorTy) :
    ∀ l : List TensorTy,
      (constructorDiags t0 l).count Diag.shapeMismatch =
        l.countP (fun t => decide (t.shape ≠ t0.shape)) ∧
      (constructorDiags t0 l).count Diag.encodingMismatch =
        l.countP (fun t => decide (t.encoding ≠ t0.encoding)) := by
  intro l
  induction l with
  | nil => constructor <;> rfl
  | cons t ts ih =>
    have hs := ih.1
    have he := ih.2
    constructor
    · rw [constructorDiags, List.flatMap_cons, List.count_append,
        List.count_append, List.countP_cons]
      rw [constructorDiags] at hs
      rw [hs]
      by_cases h1 : t.shape = t0.shape <;>
        by_cases h2 : t.encoding = t0.encoding <;>
        simp [h1, h2, List.count_cons] <;>
        omega
    · rw [constructorDiags, List.flatMap_cons, List.count_append,
        List.count_append, List.countP_cons]
      rw [constructorDiags] at he
      rw [he]
      by_cases h1 : t.shape = t0.shape <;>
        by_cases h2 : t.encoding = t0.encoding <;>
        simp [h1, h2, List.count_cons] <;>
        omega

/-- C5: construction always completes with the first operand's shape
and encoding captured, and the emitted diagnostic list contains exactly
one shape-mismatch error per operand whose shape disagrees with the
first operand's and one encoding-mismatch error per operand whose
encoding disagrees. -/
theorem mkReduceOpHelper_spec (axis : Nat) (elemTys : List Nat)
    (t0 : TensorTy) (restTys : List TensorTy) :
    (mkReduceOpHelper axis elemTys t0 restTys).1.srcShape = t0.shape ∧
    (mkReduceOpHelper axis elemTys t0 restTys).1.srcEncoding = t0.encoding ∧
    (mkReduceOpHelper axis elemTys t0 restTys).1.srcElementTypes = elemTys ∧
    (mkReduceOpHelper axis elemTys t0 restTys).1.axis = axis ∧
    (mkReduceOpHelper axis elemTys t0 restTys).2.count Diag.shapeMismatch =
      (t0 :: restTys).countP (fun t => decide (t.shape ≠ t0.shape)) ∧
    (mkReduceOpHelper axis elemTys t0 restTys).2.count Diag.encodingMismatch =
      (t0 :: restTys).countP (fun t => decide (t.encoding ≠ t0.encoding)) :=
  ⟨rfl, rfl, rfl, rfl,
    (constructorDiags_count t0 (t0 :: restTys)).1,
    (constructorDiags_count t0 (t0 :: restTys)).2⟩

/-! ## CallGraph

`CallGraph<T>::build` walks the module and records, per function, the
ordered list of `(call-site, callee)` pairs; functions whose parent is
the module itself become roots.  We embed the *result* of `build`:
functions and call sites are identified by natural numbers, the
`DenseMap<FuncOp, SmallVector<pair<CallOp, FuncOp>>> callGraph` member
is an association list, and `roots` is a list. -/

structure CallGraph where
  edges : List (Nat × List (Nat × Nat))
  roots : List Nat
deriving DecidableEq

/-- `callGraph[funcOp]`: the recorded edge list of a function
(`DenseMap::operator[]` default-constructs an empty vector for a
missing key). -/
def edgesOf (cg : CallGraph) (f : Nat) : List (Nat × Nat) :=
  (cg.edges.lookup f).getD []

/-- The `WalkOrder` template argument. -/
inductive WalkOrder where
  | PreOrder : WalkOrder
  | PostOrder : WalkOrder
deriving DecidableEq

/-- One hook invocation performed during `walk`: `node f` is a call of
`updateNodeFn` on function `f`, `edge c g` a call of `updateEdgeFn` on
call site `c` with callee `g`. -/
inductive Event where
  | node : Nat → Event
  | edge : Nat → Nat → Event
deriving DecidableEq

/-- The two recursion shapes of `doWalk`: walking a function, and
iterating the remaining suffix of its edge list. -/
inductive Job where
  | func : Nat → Job
  | edges : List (Nat × Nat) → Job
deriving DecidableEq

/-- `CallGraph<T>::doWalk`, fuel-indexed.

The result is `none` when fuel runs out, otherwise
`some (trace, s', completed)` where `trace` is the sequence of hook
invocations, `s'` the user state threaded through the hooks (modelling
the mutations of `funcMap` and user data), and `completed` is `false`
when `llvm::report_fatal_error("Cycle detected in call graph")` was
reached (a visited call site encountered) and `true` otherwise.

Mirroring the source: a pre-order node hook at entry; then for each
edge, the cycle check, the visited insertion, a pre-order edge hook,
the *unconditional* edge hook, a post-order edge hook (all three before
recursing), the recursion into the callee, and the visited erasure
(modelled by passing `c :: visited` only to the recursive call); then a
post-order node hook. -/
def walkAux (σ : Type) (nodeFn : Nat → σ → σ) (edgeFn : Nat → Nat → σ → σ)
    (cg : CallGraph) (eo no : WalkOrder) :
    Nat → Job → List Nat → σ → Option (List Event × σ × Bool)
  | 0, _, _, _ => none
  | fuel + 1, Job.func f, visited, s =>
    let p1 : List Event × σ :=
      if no = WalkOrder.PreOrder then ([Event.node f], nodeFn f s) else ([], s)
    match walkAux σ nodeFn edgeFn cg eo no fuel (Job.edges (edgesOf cg f))
        visited p1.2 with
    | none => none
    | some (tr, s2, false) => some (p1.1 ++ tr, s2, false)
    | some (tr, s2, true) =>
      let p2 : List Event × σ :=
        if no = WalkOrder.PostOrder then ([Event.node f], nodeFn f s2)
        else ([], s2)
      some (p1.1 ++ tr ++ p2.1, p2.2, true)
  | _ + 1, Job.edges [], _, s => some ([], s, true)
  | fuel + 1, Job.edges ((c, g) :: rest), visited, s =>
    if c ∈ visited then some ([], s, false)
    else
      let p1 : List Event × σ :=
        if eo = WalkOrder.PreOrder then ([Event.edge c g], edgeFn c g s)
        else ([], s)
      let s2 := edgeFn c g p1.2
      let p3 : List Event × σ :=
        if eo = WalkOrder.PostOrder then ([Event.edge c g], edgeFn c g s2)
        else ([], s2)
      match walkAux σ nodeFn edgeFn cg eo no fuel (Job.func g) (c :: visited)
          p3.2 with
      | none => none
      | some (tr, s4, false) =>
        some (p1.1 ++ [Event.edge c g] ++ p3.1 ++ tr, s4, false)
      | some (tr, s4, true) =>
        match walkAux σ nodeFn edgeFn cg eo no fuel (Job.edges rest) visited
            s4 with
        | none => none
        | some (tr2, s5, b) =>
          some (p1.1 ++ [Event.edge c g] ++ p3.1 ++ tr ++ tr2, s5, b)

/-- The loop over roots in `CallGraph<T>::walk`; each root is walked
with the (restored-to-empty) visited set, stopping at a fatal error. -/
def walkRoots (σ : Type) (nodeFn : Nat → σ → σ)
    (edgeFn : Nat → Nat → σ → σ) (cg : CallGraph) (eo no : WalkOrder)
    (fuel : Nat) : List Nat → σ → Option (List Event × σ × Bool)
  | [], s => some ([], s, true)
  | r :: rs, s =>
    match walkAux σ nodeFn edgeFn cg eo no fuel (Job.func r) [] s with
    | none => none
    | some (tr, s1, false) => some (tr, s1, false)
    | some (tr, s1, true) =>
      match walkRoots σ nodeFn edgeFn cg eo no fuel rs s1 with
      | none => none
      | some (tr2, s2, b) => some (tr ++ tr2, s2, b)

/-- `CallGraph<T>::walk`: traverse every root. -/
def walk (σ : Type) (nodeFn : Nat → σ → σ) (edgeFn : Nat → Nat → σ → σ)
    (cg : CallGraph) (eo no : WalkOrder) (fuel : Nat) (s : σ) :
    Option (List Event × σ × Bool) :=
  walkRoots σ nodeFn edgeFn cg eo no fuel cg.roots s

/-- `CallGraph<T>::doTopologicalSort`, fuel-indexed: append the function
on entry, then traverse its callees in recorded order. -/
def topoAux (cg : CallGraph) : Nat → Job → Option (List Nat)
  | 0, _ => none
  | fuel + 1, Job.func f =>
    (topoAux cg fuel (Job.edges (edgesOf cg f))).map (fun l => f :: l)
  | _ + 1, Job.edges [] => some []
  | fuel + 1, Job.edges ((_, g) :: rest) =>
    match topoAux cg fuel (Job.func g) with
    | none => none
    | some l =>
      match topoAux cg fuel (Job.edges rest) with
      | none => none
      | some l2 => some (l ++ l2)

/-- The loop over roots in `topologicalSort`, accumulating into one
vector. -/
def topoRoots (cg : CallGraph) (fuel : Nat) : List Nat → Option (List Nat)
  | [] => some []
  | r :: rs =>
    match topoAux cg fuel (Job.func r) with
    | none => none
    | some l =>
      match topoRoots cg fuel rs with
      | none => none
      | some l2 => some (l ++ l2)

/-- `SetVector::insert`: append the element unless already present. -/
def setInsert (l : List Nat) (x : Nat) : List Nat :=
  if x ∈ l then l else l ++ [x]

/-- Inserting a list of elements in order into a `SetVector`. -/
def dedupFrom : List Nat → List Nat → List Nat
  | acc, [] => acc
  | acc, x :: xs => dedupFrom (setInsert acc x) xs

/-- `CallGraph<T>::topologicalSort()`: gather the DFS pre-order lists of
all roots into `funcs`, then insert `llvm::reverse(funcs)` into a
`SetVector`. -/
def topologicalSort (cg : CallGraph) (fuel : Nat) : Option (List Nat) :=
  (topoRoots cg fuel cg.roots).map (fun funcs => dedupFrom [] funcs.reverse)

/-- The call-edge relation of the graph: `f` calls `g` through some
call site. -/
def step (cg : CallGraph) (f g : Nat) : Prop :=
  ∃ c, (c, g) ∈ edgesOf cg f

/-- Call-site identifiers are unique: one call operation belongs to
exactly one function, which is true of the IR the graph is built
from. -/
def UniqId (cg : CallGraph) : Prop :=
  ∀ c g g' f f', (c, g) ∈ edgesOf cg f → (c, g') ∈ edgesOf cg f' → f = f'

/-- All call-site identifiers recorded in the graph. -/
def allCallIds (cg : CallGraph) : List Nat :=
  cg.edges.flatMap (fun p => p.2.map Prod.fst)

/-- C1 (failing input): on the call graph with a single root `f0` and a
single call edge (call site `5`) from `f0` to `f1`, a walk invokes the
edge hook twice on that edge — once from the order-conditional branch
and once unconditionally — and with `EdgeOrder = PostOrder` both
invocations still happen before the recursion into the callee, so the
trace is the same as with `EdgeOrder = PreOrder`.  The specified
contract, "edge hook is invoked exactly once per edge per walk, at the
chosen order", is violated. -/
theorem walk_edge_hook_duplicated :
    walk Unit (fun _ s => s) (fun _ _ s => s)
        ⟨[(0, [(5, 1)]), (1, [])], [0]⟩ WalkOrder.PreOrder WalkOrder.PreOrder
        5 () =
      some ([Event.node 0, Event.edge 5 1, Event.edge 5 1, Event.node 1],
        (), true) ∧
    ((walk Unit (fun _ s => s) (fun _ _ s => s)
        ⟨[(0, [(5, 1)]), (1, [])], [0]⟩ WalkOrder.PreOrder WalkOrder.PreOrder
        5 ()).elim [] (fun r => r.1)).count (Event.edge 5 1) = 2 ∧
    walk Unit (fun _ s => s) (fun _ _ s => s)
        ⟨[(0, [(5, 1)]), (1, [])], [0]⟩ WalkOrder.PostOrder WalkOrder.PreOrder
        5 () =
      some ([Event.node 0, Event.edge 5 1, Event.edge 5 1, Event.node 1],
        (), true) :=
  ⟨rfl, rfl, rfl⟩

/-- The hook-call sequence and the completion flag produced by `doWalk`
do not depend on the user state the hooks thread through: traversal
decisions read only the graph and the visited set. -/
theorem walkAux_trace_indep (σ : Type) (nodeFn : Nat → σ → σ)
    (edgeFn : Nat → Nat → σ → σ) (cg : CallGraph) (eo no : WalkOrder) :
    ∀ (fuel : Nat) (j : Job) (visited : List Nat) (s t : σ),
      (walkAux σ nodeFn edgeFn cg eo no fuel j visited s).map
          (fun r => (r.1, r.2.2)) =
        (walkAux σ nodeFn edgeFn cg eo no fuel j visited t).map
          (fun r => (r.1, r.2.2)) := by
  intro fuel
  induction fuel with
  | zero => intro j visited s t; rfl
  | succ fuel ih =>
    intro j visited s t
    cases j with
    | func f =>
      have h := ih (Job.edges (edgesOf cg f)) visited
        (if no = WalkOrder.PreOrder then ([Event.node f], nodeFn f s) else ([], s)).2
        (if no = WalkOrder.PreOrder then ([Event.node f], nodeFn f t) else ([], t)).2
      simp only [walkAux]
      rcases hs : walkAux σ nodeFn edgeFn cg eo no fuel
          (Job.edges (edgesOf cg f)) visited
          (if no = WalkOrder.PreOrder then ([Event.node f], nodeFn f s)
            else ([], s)).2 with _ | ⟨tr, s2, b⟩ <;>
        rcases ht : walkAux σ nodeFn edgeFn cg eo no fuel
            (Job.edges (edgesOf cg f)) visited
            (if no = WalkOrder.PreOrder then ([Event.node f], nodeFn f t)
              else ([], t)).2 with _ | ⟨tr2, t2, b2⟩ <;>
        rw [hs, ht] at h <;> simp at h <;> simp [hs, ht]
      obtain ⟨h1, h2⟩ := h
      subst h1
      subst h2
      cases b <;> simp [apply_ite (f := Prod.fst)]
    | edges es =>
      cases es with
      | nil => rfl
      | cons e rest =>
        obtain ⟨c, g⟩ := e
        by_cases hc : c ∈ visited
        · simp [walkAux, hc]
        · have h1 := ih (Job.func g) (c :: visited)
            (if eo = WalkOrder.PostOrder then
              ([Event.edge c g], edgeFn c g (edgeFn c g
                (if eo = WalkOrder.PreOrder then ([Event.edge c g], edgeFn c g s)
                  else ([], s)).2))
              else ([], edgeFn c g
                (if eo = WalkOrder.PreOrder then ([Event.edge c g], edgeFn c g s)
                  else ([], s)).2)).2
            (if eo = WalkOrder.PostOrder then
              ([Event.edge c g], edgeFn c g (edgeFn c g
                (if eo = WalkOrder.PreOrder then ([Event.edge c g], edgeFn c g t)
                  else ([], t)).2))
              else ([], edgeFn c g
                (if eo = WalkOrder.PreOrder then ([Event.edge c g], edgeFn c g t)
                  else ([], t)).2)).2
          simp only [walkAux, if_neg hc]
          rcases hs : walkAux σ nodeFn edgeFn cg eo no fuel (Job.func g)
              (c :: visited) _ with _ | ⟨tr, s4, b⟩ <;>
            rcases ht : walkAux σ nodeFn edgeFn cg eo no fuel (Job.func g)
                (c :: visited) _ with _ | ⟨tr2, t4, b4⟩ <;>
            rw [hs, ht] at h1 <;> simp at h1 <;> simp [hs, ht]
          obtain ⟨he1, he2⟩ := h1
          subst he1
          subst he2
          cases b with
          | false => simp [apply_ite (f := Prod.fst)]
          | true =>
            have h2 := ih (Job.edges rest) visited s4 t4
            rcases hs2 : walkAux σ nodeFn edgeFn cg eo no fuel (Job.edges rest)
                visited s4 with _ | ⟨tr5, s5, b5⟩ <;>
              rcases ht2 : walkAux σ nodeFn edgeFn cg eo no fuel
                  (Job.edges rest) visited t4 with _ | ⟨tr6, t6, b6⟩ <;>
              rw [hs2, ht2] at h2 <;> simp at h2 <;> simp [hs2, ht2]
            obtain ⟨hf1, hf2⟩ := h2
            subst hf1
            subst hf2
            simp [apply_ite (f := Prod.fst)]

/-- State-independence of the hook-call sequence, lifted over the loop
on roots. -/
theorem walkRoots_trace_indep (σ : Type) (nodeFn : Nat → σ → σ)
    (edgeFn : Nat → Nat → σ → σ) (cg : CallGraph) (eo no : WalkOrder)
    (fuel : Nat) :
    ∀ (rs : List Nat) (s t : σ),
      (walkRoots σ nodeFn edgeFn cg eo no fuel rs s).map
          (fun r => (r.1, r.2.2)) =
        (walkRoots σ nodeFn edgeFn cg eo no fuel rs t).map
          (fun r => (r.1, r.2.2)) := by
  intro rs
  induction rs with
  | nil => intro s t; rfl
  | cons r rs ih =>
    intro s t
    have h1 := walkAux_trace_indep σ nodeFn edgeFn cg eo no fuel (Job.func r)
      [] s t
    simp only [walkRoots]
    rcases hs : walkAux σ nodeFn edgeFn cg eo no fuel (Job.func r) [] s
        with _ | ⟨tr, s1, b⟩
    · rcases ht : walkAux σ nodeFn edgeFn cg eo no fuel (Job.func r) [] t
          with _ | ⟨tr2, t1, b2⟩
      · rfl
      · rw [hs, ht] at h1
        simp at h1
    · rcases ht : walkAux σ nodeFn edgeFn cg eo no fuel (Job.func r) [] t
          with _ | ⟨tr2, t1, b2⟩
      · rw [hs, ht] at h1
        simp at h1
      · rw [hs, ht] at h1
        simp at h1
        obtain ⟨he1, he2⟩ := h1
        subst he1
        subst he2
        cases b with
        | false => rfl
        | true =>
          have h2 := ih s1 t1
          dsimp only
          rcases hs2 : walkRoots σ nodeFn edgeFn cg eo no fuel rs s1
              with _ | ⟨tr5, s5, b5⟩
          · rcases ht2 : walkRoots σ nodeFn edgeFn cg eo no fuel rs t1
                with _ | ⟨tr6, t6, b6⟩
            · rfl
            · rw [hs2, ht2] at h2
              simp at h2
          · rcases ht2 : walkRoots σ nodeFn edgeFn cg eo no fuel rs t1
                with _ | ⟨tr6, t6, b6⟩
            · rw [hs2, ht2] at h2
              simp at h2
            · rw [hs2, ht2] at h2
              simp at h2
              simp [h2.1, h2.2]

/-- C4: two successive `walk` invocations with identical hooks — the
second starting from whatever user state the first left behind —
produce identical sequences of node-hook and edge-hook calls, and the
same completion flag. -/
theorem walk_deterministic (σ : Type) (nodeFn : Nat → σ → σ)
    (edgeFn : Nat → Nat → σ → σ) (cg : CallGraph) (eo no : WalkOrder)
    (fuel : Nat) (s : σ) (tr1 : List Event) (s1 : σ) (b1 : Bool)
    (h1 : walk σ nodeFn edgeFn cg eo no fuel s = some (tr1, s1, b1)) :
    ∃ s2 b2, walk σ nodeFn edgeFn cg eo no fuel s1 = some (tr1, s2, b2) ∧
      b2 = b1 := by
  have h := walkRoots_trace_indep σ nodeFn edgeFn cg eo no fuel cg.roots s s1
  rw [show walkRoots σ nodeFn edgeFn cg eo no fuel cg.roots s =
    walk σ nodeFn edgeFn cg eo no fuel s from rfl, h1] at h
  rcases h2 : walk σ nodeFn edgeFn cg eo no fuel s1 with _ | ⟨tr2, s2, b2⟩
  · rw [show walkRoots σ nodeFn edgeFn cg eo no fuel cg.roots s1 =
      walk σ nodeFn edgeFn cg eo no fuel s1 from rfl, h2] at h
    simp at h
  · rw [show walkRoots σ nodeFn edgeFn cg eo no fuel cg.roots s1 =
      walk σ nodeFn edgeFn cg eo no fuel s1 from rfl, h2] at h
    simp at h
    refine ⟨s2, b2, ?_, h.2.symm⟩
    rw [h.1]

theorem walk_deterministic_witness :
    ∃ s2 b2, walk Nat (fun f n => n + f) (fun c g n => n + c + g)
        ⟨[(0, [(5, 1)]), (1, [])], [0]⟩ WalkOrder.PreOrder WalkOrder.PreOrder
        5 13 =
      some ([Event.node 0, Event.edge 5 1, Event.edge 5 1, Event.node 1],
        s2, b2) ∧ b2 = true :=
  walk_deterministic Nat (fun f n => n + f) (fun c g n => n + c + g)
    ⟨[(0, [(5, 1)]), (1, [])], [0]⟩ WalkOrder.PreOrder WalkOrder.PreOrder
    5 0 [Event.node 0, Event.edge 5 1, Event.edge 5 1, Event.node 1] 13 true
    rfl

/-! ### Termination of `doWalk`

Each recursive descent inserts a previously unvisited call site into
the visited set, so the recursion depth is bounded by the number of
recorded call sites and `doWalk` always terminates — either normally or
in the fatal cycle branch. -/

theorem filter_length_mono (p q : Nat → Bool)
    (h : ∀ x, q x = true → p x = true) :
    ∀ l : List Nat, (l.filter q).length ≤ (l.filter p).length := by
  intro l
  induction l with
  | nil => simp
  | cons x xs ih =>
    by_cases hq : q x = true
    · rw [List.filter_cons_of_pos hq, List.filter_cons_of_pos (h x hq)]
      simpa using ih
    · rw [List.filter_cons_of_neg (by simpa using hq)]
      by_cases hp : p x = true
      · rw [List.filter_cons_of_pos hp]
        exact Nat.le_succ_of_le ih
      · rw [List.filter_cons_of_neg (by simpa using hp)]
        exact ih

theorem filter_length_lt (p q : Nat → Bool)
    (h : ∀ x, q x = true → p x = true) (c : Nat)
    (hpc : p c = true) (hqc : q c = false) :
    ∀ l : List Nat, c ∈ l → (l.filter q).length < (l.filter p).length := by
  intro l
  induction l with
  | nil => intro hc; simp at hc
  | cons x xs ih =>
    intro hc
    rcases List.mem_cons.mp hc with hx | hx
    · subst hx
      rw [List.filter_cons_of_pos hpc, List.filter_cons_of_neg (by simp [hqc])]
      exact Nat.lt_succ_of_le (filter_length_mono p q h xs)
    · by_cases hq : q x = true
      · rw [List.filter_cons_of_pos hq, List.filter_cons_of_pos (h x hq)]
        simpa using ih hx
      · rw [List.filter_cons_of_neg (by simpa using hq)]
        by_cases hp : p x = true
        · rw [List.filter_cons_of_pos hp]
          exact Nat.lt_succ_of_lt (ih hx)
        · rw [List.filter_cons_of_neg (by simpa using hp)]
          exact ih hx

/-- The number of recorded call sites not yet on the DFS stack. -/
def remaining (cg : CallGraph) (visited : List Nat) : Nat :=
  ((allCallIds cg).filter (fun c => decide (c ∉ visited))).length

theorem lookup_mem {β : Type} (f : Nat) (es : β) :
    ∀ l : List (Nat × β), List.lookup f l = some es → (f, es) ∈ l := by
  intro l
  induction l with
  | nil => intro h; simp [List.lookup] at h
  | cons p ps ih =>
    obtain ⟨a, b⟩ := p
    intro h
    rw [List.lookup_cons] at h
    by_cases ha : f = a
    · subst ha
      simp at h
      subst h
      exact List.mem_cons_self _ _
    · have : (f == a) = false := by simp [ha]
      rw [this] at h
      exact List.mem_cons_of_mem _ (ih h)

theorem mem_allCallIds (cg : CallGraph) (f c g : Nat)
    (h : (c, g) ∈ edgesOf cg f) : c ∈ allCallIds cg := by
  rw [edgesOf] at h
  rcases hl : cg.edges.lookup f with _ | es
  · rw [hl] at h; simp at h
  · rw [hl] at h
    simp only [Option.getD_some] at h
    rw [allCallIds, List.mem_flatMap]
    exact ⟨(f, es), lookup_mem f es cg.edges hl,
      List.mem_map.mpr ⟨(c, g), h, rfl⟩⟩

theorem chunk_length_le (f : Nat) (es : List (Nat × Nat)) :
    ∀ l : List (Nat × List (Nat × Nat)), (f, es) ∈ l →
      es.length ≤ (l.flatMap (fun p => p.2.map Prod.fst)).length := by
  intro l
  induction l with
  | nil => intro h; simp at h
  | cons p ps ih =>
    intro hmem
    rcases List.mem_cons.mp hmem with hx | hx
    · rw [List.flatMap_cons, ← hx]
      simp only [List.length_append, List.length_map]
      omega
    · have h1 := ih hx
      rw [List.flatMap_cons]
      simp only [List.length_append]
      omega

theorem edgesOf_length_le (cg : CallGraph) (f : Nat) :
    (edgesOf cg f).length ≤ (allCallIds cg).length := by
  rw [edgesOf]
  rcases hl : cg.edges.lookup f with _ | es
  · simp
  · simp only [Option.getD_some]
    exact chunk_length_le f es cg.edges (lookup_mem f es cg.edges hl)

theorem remaining_lt (cg : CallGraph) (visited : List Nat) (c : Nat)
    (hc : c ∈ allCallIds cg) (hv : c ∉ visited) :
    remaining cg (c :: visited) < remaining cg visited := by
  have hq : ∀ x, (fun y => decide (y ∉ c :: visited)) x = true →
      (fun y => decide (y ∉ visited)) x = true := by
    intro x hx
    simp at hx ⊢
    exact hx.2
  have hpc : (fun y => decide (y ∉ visited)) c = true := by simp [hv]
  have hqc : (fun y => decide (y ∉ c :: visited)) c = false := by simp
  exact filter_length_lt _ _ hq c hpc hqc (allCallIds cg) hc

/-- `doWalk` is total: with fuel exceeding the bound determined by the
number of recorded call sites, it never runs out. -/
theorem walkAux_isSome (σ : Type) (nodeFn : Nat → σ → σ)
    (edgeFn : Nat → Nat → σ → σ) (cg : CallGraph) (eo no : WalkOrder) :
    ∀ (fuel : Nat) (j : Job) (visited : List Nat) (s : σ),
      (match j with
        | Job.func _ =>
          (remaining cg visited + 1) * ((allCallIds cg).length + 2) ≤ fuel
        | Job.edges es =>
          (∀ e ∈ es, e.1 ∈ allCallIds cg) ∧
          es.length ≤ (allCallIds cg).length ∧
          remaining cg visited * ((allCallIds cg).length + 2) + es.length + 1 ≤
            fuel) →
      walkAux σ nodeFn edgeFn cg eo no fuel j visited s ≠ none := by
  intro fuel
  induction fuel with
  | zero =>
    intro j visited s hcond
    exfalso
    cases j with
    | func f =>
      simp only at hcond
      have h1 : 0 < (remaining cg visited + 1) * ((allCallIds cg).length + 2) :=
        Nat.mul_pos (by omega) (by omega)
      omega
    | edges es =>
      simp only at hcond
      omega
  | succ fuel ih =>
    intro j visited s hcond
    cases j with
    | func f =>
      simp only at hcond
      have hexp : (remaining cg visited + 1) * ((allCallIds cg).length + 2) =
          remaining cg visited * ((allCallIds cg).length + 2) +
            (allCallIds cg).length + 2 := by ring
      have hsub :=
        ih (Job.edges (edgesOf cg f)) visited
          (if no = WalkOrder.PreOrder then ([Event.node f], nodeFn f s)
            else ([], s)).2
          ⟨fun e he => by
              obtain ⟨c, g⟩ := e
              exact mem_allCallIds cg f c g he,
            edgesOf_length_le cg f,
            by have := edgesOf_length_le cg f; omega⟩
      simp only [walkAux]
      rcases hin : walkAux σ nodeFn edgeFn cg eo no fuel
          (Job.edges (edgesOf cg f)) visited
          (if no = WalkOrder.PreOrder then ([Event.node f], nodeFn f s)
            else ([], s)).2 with _ | ⟨tr, s2, b⟩
      · exact absurd hin hsub
      · cases b <;> simp
    | edges es =>
      obtain ⟨hids, hlen, hfuel⟩ := hcond
      cases es with
      | nil => simp [walkAux]
      | cons e rest =>
        obtain ⟨c, g⟩ := e
        simp only [walkAux]
        by_cases hc : c ∈ visited
        · simp [hc]
        · rw [if_neg hc]
          have hcid : c ∈ allCallIds cg := hids (c, g) (List.mem_cons_self _ _)
          have hrem := remaining_lt cg visited c hcid hc
          have hfunc :=
            ih (Job.func g) (c :: visited)
              (if eo = WalkOrder.PostOrder then
                ([Event.edge c g], edgeFn c g (edgeFn c g
                  (if eo = WalkOrder.PreOrder then
                    ([Event.edge c g], edgeFn c g s) else ([], s)).2))
                else ([], edgeFn c g
                  (if eo = WalkOrder.PreOrder then
                    ([Event.edge c g], edgeFn c g s) else ([], s)).2)).2
              (by
                simp only
                have hstep : (remaining cg (c :: visited) + 1) *
                    ((allCallIds cg).length + 2) ≤
                    remaining cg visited * ((allCallIds cg).length + 2) :=
                  Nat.mul_le_mul_right _ (by omega)
                simp only [List.length_cons] at hfuel
                omega)
          rcases hin : walkAux σ nodeFn edgeFn cg eo no fuel (Job.func g)
              (c :: visited) _ with _ | ⟨tr, s4, b⟩
          · exact absurd hin hfunc
          · cases b with
            | false => simp
            | true =>
              have hrest :=
                ih (Job.edges rest) visited s4
                  ⟨fun e he => hids e (List.mem_cons_of_mem _ he),
                    by simp at hlen ⊢; omega,
                    by simp only [List.length_cons] at hfuel; omega⟩
              dsimp only
              rcases hin2 : walkAux σ nodeFn edgeFn cg eo no fuel
                  (Job.edges rest) visited s4 with _ | ⟨tr2, s5, b5⟩
              · exact absurd hin2 hrest
              · simp

/-! ### Cycle detection in `doWalk` -/

/-- If a cycle is reachable from the function being walked, `doWalk`
never completes normally (it either hits the fatal branch or, in the
fuel model, exhausts fuel — which `walkAux_isSome` rules out). -/
theorem walkAux_cycle_not_true (σ : Type) (nodeFn : Nat → σ → σ)
    (edgeFn : Nat → Nat → σ → σ) (cg : CallGraph) (eo no : WalkOrder)
    (h : Nat) (hcyc : Relation.TransGen (step cg) h h) :
    ∀ (fuel : Nat) (j : Job) (visited : List Nat) (s : σ)
      (tr : List Event) (s' : σ),
      (match j with
        | Job.func f => Relation.ReflTransGen (step cg) f h
        | Job.edges es =>
          ∃ c g, (c, g) ∈ es ∧ Relation.ReflTransGen (step cg) g h) →
      walkAux σ nodeFn edgeFn cg eo no fuel j visited s ≠
        some (tr, s', true) := by
  intro fuel
  induction fuel with
  | zero => intro j visited s tr s' _ heq; exact Option.noConfusion heq
  | succ fuel ih =>
    intro j visited s tr s' hcond heq
    cases j with
    | func f =>
      simp only at hcond
      have hnext : ∃ c g, (c, g) ∈ edgesOf cg f ∧
          Relation.ReflTransGen (step cg) g h := by
        rcases Relation.ReflTransGen.cases_head hcond with heqf | ⟨g, hstep, hre⟩
        · subst heqf
          rcases Relation.TransGen.head'_iff.mp hcyc with ⟨g, hstep, hre⟩
          obtain ⟨c, hc⟩ := hstep
          exact ⟨c, g, hc, hre⟩
        · obtain ⟨c, hc⟩ := hstep
          exact ⟨c, g, hc, hre⟩
      simp only [walkAux] at heq
      rcases hin : walkAux σ nodeFn edgeFn cg eo no fuel
          (Job.edges (edgesOf cg f)) visited
          (if no = WalkOrder.PreOrder then ([Event.node f], nodeFn f s)
            else ([], s)).2 with _ | ⟨tr0, s2, b0⟩
      · rw [hin] at heq; exact Option.noConfusion heq
      · rw [hin] at heq
        cases b0 with
        | false => simp at heq
        | true => exact ih (Job.edges (edgesOf cg f)) visited _ tr0 s2 hnext hin
    | edges es =>
      obtain ⟨c, g, hmem, hre⟩ := hcond
      cases es with
      | nil => simp at hmem
      | cons e rest =>
        obtain ⟨c', g'⟩ := e
        simp only [walkAux] at heq
        by_cases hc' : c' ∈ visited
        · rw [if_pos hc'] at heq
          simp at heq
        · rw [if_neg hc'] at heq
          rcases hin : walkAux σ nodeFn edgeFn cg eo no fuel (Job.func g')
              (c' :: visited)
              (if eo = WalkOrder.PostOrder then
                ([Event.edge c' g'], edgeFn c' g' (edgeFn c' g'
                  (if eo = WalkOrder.PreOrder then
                    ([Event.edge c' g'], edgeFn c' g' s) else ([], s)).2))
                else ([], edgeFn c' g'
                  (if eo = WalkOrder.PreOrder then
                    ([Event.edge c' g'], edgeFn c' g' s) else ([], s)).2)).2
              with _ | ⟨tr0, s4, b4⟩
          · rw [hin] at heq; exact Option.noConfusion heq
          · rw [hin] at heq
            cases b4 with
            | false => simp at heq
            | true =>
              dsimp only at heq
              rcases List.mem_cons.mp hmem with hx | hx
              · obtain ⟨hc1, hc2⟩ := Prod.mk.injEq .. ▸ hx
                exact ih (Job.func g') (c' :: visited) _ tr0 s4
                  (by simp only; rw [← hc2]; exact hre) hin
              · rcases hin2 : walkAux σ nodeFn edgeFn cg eo no fuel
                    (Job.edges rest) visited s4 with _ | ⟨tr2, s5, b5⟩
                · rw [hin2] at heq; exact Option.noConfusion heq
                · rw [hin2] at heq
                  simp at heq
                  exact ih (Job.edges rest) visited s4 tr2 s5
                    ⟨c, g, hx, hre⟩ (by rw [hin2, heq.2.2])

/-- A DFS stack: `ChainTo cg r f cs` says the call sites in `cs`
(most recent first) form a path from the root `r` to `f`. -/
inductive ChainTo (cg : CallGraph) (r : Nat) : Nat → List Nat → Prop where
  | nil : ChainTo cg r r []
  | cons {f cs c g} : ChainTo cg r f cs → (c, g) ∈ edgesOf cg f →
      ChainTo cg r g (c :: cs)

theorem ChainTo.reaches {cg : CallGraph} {r f : Nat} {cs : List Nat}
    (h : ChainTo cg r f cs) : Relation.ReflTransGen (step cg) r f := by
  induction h with
  | nil => exact Relation.ReflTransGen.refl
  | cons _ hmem ih => exact Relation.ReflTransGen.tail ih ⟨_, hmem⟩

theorem chainTo_split {cg : CallGraph} {r f : Nat} {cs : List Nat} {c : Nat}
    (h : ChainTo cg r f cs) (hc : c ∈ cs) :
    ∃ f' g', (c, g') ∈ edgesOf cg f' ∧
      Relation.ReflTransGen (step cg) g' f ∧
      Relation.ReflTransGen (step cg) r f' := by
  induction h with
  | nil => simp at hc
  | cons hprev hmem ih =>
    rcases List.mem_cons.mp hc with hx | hx
    · subst hx
      exact ⟨_, _, hmem, Relation.ReflTransGen.refl, hprev.reaches⟩
    · obtain ⟨f', g', hmem', hre1, hre2⟩ := ih hx
      exact ⟨f', g', hmem', Relation.ReflTransGen.tail hre1 ⟨_, hmem⟩, hre2⟩

/-- No cycle is reachable from `r`. -/
def NoCycleFrom (cg : CallGraph) (r : Nat) : Prop :=
  ¬ ∃ h, Relation.ReflTransGen (step cg) r h ∧
    Relation.TransGen (step cg) h h

/-- When no cycle is reachable from the root being walked, `doWalk`
never reaches the fatal branch: whatever result it returns is a normal
completion. -/
theorem walkAux_no_cycle_true (σ : Type) (nodeFn : Nat → σ → σ)
    (edgeFn : Nat → Nat → σ → σ) (cg : CallGraph) (eo no : WalkOrder)
    (hU : UniqId cg) (r : Nat) (hnc : NoCycleFrom cg r) :
    ∀ (fuel : Nat) (j : Job) (visited : List Nat) (s : σ)
      (tr : List Event) (s' : σ) (b : Bool),
      (match j with
        | Job.func f => ChainTo cg r f visited
        | Job.edges es =>
          ∃ f, ChainTo cg r f visited ∧ ∀ e ∈ es, e ∈ edgesOf cg f) →
      walkAux σ nodeFn edgeFn cg eo no fuel j visited s = some (tr, s', b) →
      b = true := by
  intro fuel
  induction fuel with
  | zero => intro j visited s tr s' b _ heq; exact Option.noConfusion heq
  | succ fuel ih =>
    intro j visited s tr s' b hcond heq
    cases j with
    | func f =>
      simp only at hcond
      simp only [walkAux] at heq
      rcases hin : walkAux σ nodeFn edgeFn cg eo no fuel
          (Job.edges (edgesOf cg f)) visited
          (if no = WalkOrder.PreOrder then ([Event.node f], nodeFn f s)
            else ([], s)).2 with _ | ⟨tr0, s2, b0⟩
      · rw [hin] at heq; exact Option.noConfusion heq
      · rw [hin] at heq
        have hb0 : b0 = true :=
          ih (Job.edges (edgesOf cg f)) visited _ tr0 s2 b0
            ⟨f, hcond, fun e he => he⟩ hin
        subst hb0
        simp at heq
        exact heq.2.2
    | edges es =>
      obtain ⟨f, hch, hsub⟩ := hcond
      cases es with
      | nil =>
        simp only [walkAux] at heq
        simp at heq
        exact heq.2.2
      | cons e rest =>
        obtain ⟨c, g⟩ := e
        simp only [walkAux] at heq
        by_cases hc : c ∈ visited
        · exfalso
          have hmem : (c, g) ∈ edgesOf cg f :=
            hsub (c, g) (List.mem_cons_self _ _)
          obtain ⟨f', g', hmem', hre1, hre2⟩ := chainTo_split hch hc
          have hff : f' = f := hU c g' g f' f hmem' hmem
          subst hff
          exact hnc ⟨f', hch.reaches,
            Relation.TransGen.head' ⟨c, hmem'⟩ hre1⟩
        · rw [if_neg hc] at heq
          rcases hin : walkAux σ nodeFn edgeFn cg eo no fuel (Job.func g)
              (c :: visited)
              (if eo = WalkOrder.PostOrder then
                ([Event.edge c g], edgeFn c g (edgeFn c g
                  (if eo = WalkOrder.PreOrder then
                    ([Event.edge c g], edgeFn c g s) else ([], s)).2))
                else ([], edgeFn c g
                  (if eo = WalkOrder.PreOrder then
                    ([Event.edge c g], edgeFn c g s) else ([], s)).2)).2
              with _ | ⟨tr0, s4, b4⟩
          · rw [hin] at heq; exact Option.noConfusion heq
          · rw [hin] at heq
            have hb4 : b4 = true :=
              ih (Job.func g) (c :: visited) _ tr0 s4 b4
                (ChainTo.cons hch (hsub (c, g) (List.mem_cons_self _ _))) hin
            subst hb4
            dsimp only at heq
            rcases hin2 : walkAux σ nodeFn edgeFn cg eo no fuel
                (Job.edges rest) visited s4 with _ | ⟨tr2, s5, b5⟩
            · rw [hin2] at heq; exact Option.noConfusion heq
            · rw [hin2] at heq
              have hb5 : b5 = true :=
                ih (Job.edges rest) visited s4 tr2 s5 b5
                  ⟨f, hch, fun e he => hsub e (List.mem_cons_of_mem _ he)⟩ hin2
              subst hb5
              simp at heq
              exact heq.2.2

theorem remaining_nil (cg : CallGraph) :
    remaining cg [] = (allCallIds cg).length := by
  rw [remaining]
  congr 1
  rw [List.filter_eq_self]
  intro a _
  simp

/-- The loop over roots: with sufficient fuel, `walk` returns a result,
and that result is fatal exactly when a cycle is reachable from one of
the processed roots. -/
theorem walkRoots_result (σ : Type) (nodeFn : Nat → σ → σ)
    (edgeFn : Nat → Nat → σ → σ) (cg : CallGraph) (eo no : WalkOrder)
    (hU : UniqId cg) (fuel : Nat)
    (hfuel : ((allCallIds cg).length + 1) * ((allCallIds cg).length + 2) ≤
      fuel) :
    ∀ (rs : List Nat) (s : σ),
      ∃ tr s' b, walkRoots σ nodeFn edgeFn cg eo no fuel rs s =
        some (tr, s', b) ∧
        (b = false ↔ ∃ r ∈ rs, ∃ h, Relation.ReflTransGen (step cg) r h ∧
          Relation.TransGen (step cg) h h) := by
  intro rs
  induction rs with
  | nil =>
    intro s
    exact ⟨[], s, true, rfl, by simp⟩
  | cons r rs ih =>
    intro s
    have htot := walkAux_isSome σ nodeFn edgeFn cg eo no fuel (Job.func r)
      [] s (show (remaining cg [] + 1) * ((allCallIds cg).length + 2) ≤ fuel
        by rw [remaining_nil]; exact hfuel)
    simp only [walkRoots]
    rcases hin : walkAux σ nodeFn edgeFn cg eo no fuel (Job.func r) [] s
        with _ | ⟨tr, s1, b⟩
    · exact absurd hin htot
    · cases b with
      | false =>
        have hcyc : ∃ h, Relation.ReflTransGen (step cg) r h ∧
            Relation.TransGen (step cg) h h := by
          by_contra hno
          have := walkAux_no_cycle_true σ nodeFn edgeFn cg eo no hU r hno
            fuel (Job.func r) [] s tr s1 false ChainTo.nil hin
          simp at this
        exact ⟨tr, s1, false, rfl,
          ⟨fun _ => ⟨r, List.mem_cons_self _ _, hcyc⟩, fun _ => rfl⟩⟩
      | true =>
        have hnc : NoCycleFrom cg r := by
          intro hex
          obtain ⟨h, hre, htg⟩ := hex
          exact walkAux_cycle_not_true σ nodeFn edgeFn cg eo no h htg fuel
            (Job.func r) [] s tr s1 hre hin
        obtain ⟨tr2, s2, b2, hrec, hiff⟩ := ih s1
        dsimp only
        rw [hrec]
        refine ⟨tr ++ tr2, s2, b2, rfl, ?_⟩
        rw [hiff]
        constructor
        · rintro ⟨r', hr', hcyc⟩
          exact ⟨r', List.mem_cons_of_mem _ hr', hcyc⟩
        · rintro ⟨r', hr', hcyc⟩
          rcases List.mem_cons.mp hr' with hx | hx
          · subst hx
            exact absurd hcyc hnc
          · exact ⟨r', hx, hcyc⟩

/-- C3: with the call sites of the graph pairwise distinct and enough
fuel, `walk` always returns — and it ends in the fatal cycle branch
exactly when a directed cycle of the call-edge relation is reachable
from one of the roots; on acyclic input the fatal branch is never
reached. -/
theorem walk_fatal_iff_cycle (σ : Type) (nodeFn : Nat → σ → σ)
    (edgeFn : Nat → Nat → σ → σ) (cg : CallGraph) (eo no : WalkOrder)
    (hU : UniqId cg) (fuel : Nat)
    (hfuel : ((allCallIds cg).length + 1) * ((allCallIds cg).length + 2) ≤
      fuel) (s : σ) :
    ∃ tr s' b, walk σ nodeFn edgeFn cg eo no fuel s = some (tr, s', b) ∧
      (b = false ↔ ∃ r ∈ cg.roots, ∃ h,
        Relation.ReflTransGen (step cg) r h ∧
        Relation.TransGen (step cg) h h) :=
  walkRoots_result σ nodeFn edgeFn cg eo no hU fuel hfuel cg.roots s

theorem walk_fatal_iff_cycle_witness :
    ∃ tr s' b, walk Unit (fun _ s => s) (fun _ _ s => s)
        (CallGraph.mk [(0, [(5, 1)]), (1, [])] [0]) WalkOrder.PreOrder
        WalkOrder.PreOrder 10 () = some (tr, s', b) ∧
      (b = false ↔ ∃ r ∈ (CallGraph.mk [(0, [(5, 1)]), (1, [])] [0]).roots,
        ∃ h, Relation.ReflTransGen
          (step (CallGraph.mk [(0, [(5, 1)]), (1, [])] [0])) r h ∧
        Relation.TransGen
          (step (CallGraph.mk [(0, [(5, 1)]), (1, [])] [0])) h h) :=
  walk_fatal_iff_cycle Unit (fun _ s => s) (fun _ _ s => s)
    (CallGraph.mk [(0, [(5, 1)]), (1, [])] [0]) WalkOrder.PreOrder
    WalkOrder.PreOrder
    (by
      intro c g g' f f' h1 h2
      have key : ∀ fx cx gx,
          (cx, gx) ∈ edgesOf (CallGraph.mk [(0, [(5, 1)]), (1, [])] [0]) fx →
            fx = 0 := by
        intro fx cx gx hmem
        rw [edgesOf] at hmem
        by_cases f0 : fx = 0
        · exact f0
        · by_cases f1 : fx = 1
          · subst f1
            simp [List.lookup] at hmem
          · have h0 : (fx == 0) = false := by simp [f0]
            have h1' : (fx == 1) = false := by simp [f1]
            simp [List.lookup, h0, h1'] at hmem
      rw [key f c g h1, key f' c g' h2])
    10 (by decide) ()

/-! ### `topologicalSort`: callees precede callers -/

/-- `doTopologicalSort` appends the function itself first. -/
theorem topoAux_func_head (cg : CallGraph) (fuel : Nat) (f : Nat)
    (l : List Nat) (h : topoAux cg fuel (Job.func f) = some l) :
    ∃ l', l = f :: l' := by
  cases fuel with
  | zero => exact Option.noConfusion h
  | succ fuel =>
    simp only [topoAux] at h
    rcases hin : topoAux cg fuel (Job.edges (edgesOf cg f)) with _ | ts
    · rw [hin] at h; exact Option.noConfusion h
    · rw [hin] at h
      simp at h
      exact ⟨ts, h.symm⟩

/-- Every callee on the edge list appears in the traversal of that
list. -/
theorem topoAux_edges_mem (cg : CallGraph) :
    ∀ (fuel : Nat) (es : List (Nat × Nat)) (ts : List Nat) (c g : Nat),
      topoAux cg fuel (Job.edges es) = some ts → (c, g) ∈ es → g ∈ ts := by
  intro fuel
  induction fuel with
  | zero => intro es ts c g h _; exact Option.noConfusion h
  | succ fuel ih =>
    intro es ts c g h hmem
    cases es with
    | nil => simp at hmem
    | cons e rest =>
      obtain ⟨c', g'⟩ := e
      simp only [topoAux] at h
      rcases h1 : topoAux cg fuel (Job.func g') with _ | l1
      · rw [h1] at h; exact Option.noConfusion h
      · rw [h1] at h
        rcases h2 : topoAux cg fuel (Job.edges rest) with _ | l2
        · rw [h2] at h; exact Option.noConfusion h
        · rw [h2] at h
          simp at h
          subst h
          rcases List.mem_cons.mp hmem with hx | hx
          · obtain ⟨l1', hl1⟩ := topoAux_func_head cg fuel g' l1 h1
            have : g = g' := by
              have := congrArg Prod.snd hx
              simpa using this
            subst this
            rw [hl1]
            exact List.mem_append_left _ (List.mem_cons_self _ _)
          · exact List.mem_append_right _ (ih rest l2 c g h2 hx)

/-- Key ordering property of the DFS pre-order list: after any
occurrence of a function `f0`, each of its callees occurs again. -/
theorem topoAux_after (cg : CallGraph) (f0 c0 g0 : Nat)
    (hedge : (c0, g0) ∈ edgesOf cg f0) :
    ∀ (fuel : Nat) (j : Job) (l : List Nat),
      topoAux cg fuel j = some l →
      ∀ A B, l = A ++ f0 :: B → g0 ∈ B := by
  intro fuel
  induction fuel with
  | zero => intro j l h; exact Option.noConfusion h
  | succ fuel ih =>
    intro j l h A B hsplit
    cases j with
    | func f =>
      simp only [topoAux] at h
      rcases hin : topoAux cg fuel (Job.edges (edgesOf cg f)) with _ | ts
      · rw [hin] at h; exact Option.noConfusion h
      · rw [hin] at h
        simp at h
        rw [← h] at hsplit
        cases A with
        | nil =>
          simp at hsplit
          obtain ⟨hf, hts⟩ := hsplit
          subst hf
          rw [← hts]
          exact topoAux_edges_mem cg fuel (edgesOf cg f) ts c0 g0 hin hedge
        | cons a A' =>
          simp at hsplit
          obtain ⟨_, hts⟩ := hsplit
          exact ih (Job.edges (edgesOf cg f)) ts hin A' B hts
    | edges es =>
      cases es with
      | nil =>
        simp only [topoAux] at h
        simp at h
        rw [h] at hsplit
        simp at hsplit
      | cons e rest =>
        obtain ⟨c', g'⟩ := e
        simp only [topoAux] at h
        rcases h1 : topoAux cg fuel (Job.func g') with _ | l1
        · rw [h1] at h; exact Option.noConfusion h
        · rw [h1] at h
          rcases h2 : topoAux cg fuel (Job.edges rest) with _ | l2
          · rw [h2] at h; exact Option.noConfusion h
          · rw [h2] at h
            simp at h
            rw [← h] at hsplit
            rcases List.append_eq_append_iff.mp hsplit with ⟨w, hw1, hw2⟩ |
              ⟨w, hw1, hw2⟩
            · exact ih (Job.edges rest) l2 h2 w B hw2
            · cases w with
              | nil =>
                simp at hw2
                exact ih (Job.edges rest) l2 h2 [] B (by simp [hw2])
              | cons w0 ws =>
                simp at hw2
                obtain ⟨hw0, hB⟩ := hw2
                subst hw0
                have : g0 ∈ ws := ih (Job.func g') l1 h1 A ws hw1
                rw [hB]
                exact List.mem_append_left _ this

/-- The ordering property over the concatenation of all roots'
traversals. -/
theorem topoRoots_after (cg : CallGraph) (f0 c0 g0 : Nat)
    (hedge : (c0, g0) ∈ edgesOf cg f0) (fuel : Nat) :
    ∀ (rs : List Nat) (l : List Nat),
      topoRoots cg fuel rs = some l →
      ∀ A B, l = A ++ f0 :: B → g0 ∈ B := by
  intro rs
  induction rs with
  | nil =>
    intro l h A B hsplit
    simp only [topoRoots] at h
    simp at h
    rw [h] at hsplit
    simp at hsplit
  | cons r rest ih =>
    intro l h A B hsplit
    simp only [topoRoots] at h
    rcases h1 : topoAux cg fuel (Job.func r) with _ | l1
    · rw [h1] at h; exact Option.noConfusion h
    · rw [h1] at h
      rcases h2 : topoRoots cg fuel rest with _ | l2
      · rw [h2] at h; exact Option.noConfusion h
      · rw [h2] at h
        simp at h
        rw [← h] at hsplit
        rcases List.append_eq_append_iff.mp hsplit with ⟨w, hw1, hw2⟩ |
          ⟨w, hw1, hw2⟩
        · exact ih l2 h2 w B hw2
        · cases w with
          | nil =>
            simp at hw2
            exact ih l2 h2 [] B (by simp [hw2])
          | cons w0 ws =>
            simp at hw2
            obtain ⟨hw0, hB⟩ := hw2
            subst hw0
            have : g0 ∈ ws :=
              topoAux_after cg f0 c0 g0 hedge fuel (Job.func r) l1 h1 A ws hw1
            rw [hB]
            exact List.mem_append_left _ this

theorem setInsert_mem (l : List Nat) (x y : Nat) :
    y ∈ setInsert l x ↔ y ∈ l ∨ y = x := by
  by_cases h : x ∈ l
  · rw [setInsert, if_pos h]
    constructor
    · exact Or.inl
    · rintro (hy | rfl)
      · exact hy
      · exact h
  · rw [setInsert, if_neg h]
    simp

theorem setInsert_sublist (l : List Nat) (x : Nat) :
    l.Sublist (setInsert l x) := by
  by_cases h : x ∈ l
  · rw [setInsert, if_pos h]
  · rw [setInsert, if_neg h]
    exact List.sublist_append_left l [x]

theorem setInsert_nodup (l : List Nat) (x : Nat) (h : l.Nodup) :
    (setInsert l x).Nodup := by
  by_cases hx : x ∈ l
  · rwa [setInsert, if_pos hx]
  · rw [setInsert, if_neg hx]
    rw [List.nodup_append]
    refine ⟨h, List.nodup_singleton x, ?_⟩
    intro a ha hax
    simp at hax
    subst hax
    exact hx ha

theorem dedupFrom_mem : ∀ (l acc : List Nat) (y : Nat),
    y ∈ dedupFrom acc l ↔ y ∈ acc ∨ y ∈ l := by
  intro l
  induction l with
  | nil => intro acc y; simp [dedupFrom]
  | cons x xs ih =>
    intro acc y
    rw [dedupFrom, ih, setInsert_mem]
    simp [List.mem_cons]
    tauto

theorem dedupFrom_nodup : ∀ (l acc : List Nat), acc.Nodup →
    (dedupFrom acc l).Nodup := by
  intro l
  induction l with
  | nil => intro acc h; exact h
  | cons x xs ih =>
    intro acc h
    rw [dedupFrom]
    exact ih _ (setInsert_nodup acc x h)

/-- `SetVector` insertion preserves first-occurrence order: if before
every occurrence of `f` in the input there is an occurrence of `g`,
then `g` precedes `f` in the deduplicated output. -/
theorem dedupFrom_order (f g : Nat) : ∀ (l acc : List Nat),
    (f ∈ acc → [g, f].Sublist acc) →
    (∀ A B, l = A ++ f :: B → g ∈ acc ∨ g ∈ A) →
    (f ∈ acc ∨ f ∈ l) →
    [g, f].Sublist (dedupFrom acc l) := by
  intro l
  induction l with
  | nil =>
    intro acc h1 h2 h3
    rcases h3 with hf | hf
    · exact h1 hf
    · simp at hf
  | cons x xs ih =>
    intro acc h1 h2 h3
    rw [dedupFrom]
    apply ih
    · intro hf
      rcases (setInsert_mem acc x f).mp hf with hfa | hfx
      · exact (h1 hfa).trans (setInsert_sublist acc x)
      · subst hfx
        have hg : g ∈ acc := by
          rcases h2 [] xs rfl with hga | hgn
          · exact hga
          · simp at hgn
        by_cases hfacc : f ∈ acc
        · exact (h1 hfacc).trans (setInsert_sublist acc f)
        · rw [setInsert, if_neg hfacc]
          exact List.Sublist.append (List.singleton_sublist.mpr hg)
            (List.Sublist.refl [f])
    · intro A B hAB
      rcases h2 (x :: A) B (by rw [hAB]; rfl) with hga | hgx
      · exact Or.inl ((setInsert_mem acc x g).mpr (Or.inl hga))
      · rcases List.mem_cons.mp hgx with hgx1 | hgx2
        · exact Or.inl ((setInsert_mem acc x g).mpr (Or.inr hgx1))
        · exact Or.inr hgx2
    · rcases h3 with hf | hf
      · exact Or.inl ((setInsert_mem acc x f).mpr (Or.inl hf))
      · rcases List.mem_cons.mp hf with hfx | hfxs
        · exact Or.inl ((setInsert_mem acc x f).mpr (Or.inr hfx))
        · exact Or.inr hfxs

/-- C2: on any graph where `topologicalSort` returns a result (which
acyclic graphs always do with enough fuel), the result is
duplicate-free and lists every callee before every one of its callers:
for a call edge from `f` to `g` with both functions in the result, `g`
precedes `f`. -/
theorem topologicalSort_callees_first (cg : CallGraph) (fuel : Nat)
    (sorted : List Nat) (f g c : Nat)
    (hsort : topologicalSort cg fuel = some sorted)
    (hedge : (c, g) ∈ edgesOf cg f)
    (hf : f ∈ sorted) (hg : g ∈ sorted) :
    sorted.Nodup ∧ [g, f].Sublist sorted := by
  rw [topologicalSort] at hsort
  rcases hr : topoRoots cg fuel cg.roots with _ | funcs
  · rw [hr] at hsort; exact Option.noConfusion hsort
  · rw [hr] at hsort
    simp at hsort
    rw [← hsort]
    rw [← hsort] at hf
    constructor
    · exact dedupFrom_nodup _ [] List.nodup_nil
    · apply dedupFrom_order f g funcs.reverse []
      · intro hf0
        simp at hf0
      · intro A B hAB
        have hfuncs : funcs = B.reverse ++ f :: A.reverse := by
          have h0 := congrArg List.reverse hAB
          simpa using h0
        have hmem := topoRoots_after cg f c g hedge fuel cg.roots funcs hr
          B.reverse A.reverse hfuncs
        exact Or.inr (List.mem_reverse.mp hmem)
      · rcases (dedupFrom_mem funcs.reverse [] f).mp hf with h0 | h0
        · simp at h0
        · exact Or.inr h0

theorem topologicalSort_callees_first_witness :
    ([3, 2, 1, 0] : List Nat).Nodup ∧
      ([3, 1] : List Nat).Sublist [3, 2, 1, 0] :=
  topologicalSort_callees_first
    (CallGraph.mk [(0, [(10, 1), (11, 2)]), (1, [(12, 3)]), (2, [(13, 3)]),
      (3, [])] [0]) 12 [3, 2, 1, 0] 1 3 12
    rfl (by decide) (by decide) (by decide)

/-! ### Termination of `topologicalSort` on acyclic graphs -/

/-- More fuel never changes a successful traversal. -/
theorem topoAux_mono (cg : CallGraph) :
    ∀ (fuel fuel' : Nat) (j : Job) (l : List Nat),
      topoAux cg fuel j = some l → fuel ≤ fuel' →
      topoAux cg fuel' j = some l := by
  intro fuel
  induction fuel with
  | zero => intro fuel' j l h; exact Option.noConfusion h
  | succ fuel ih =>
    intro fuel' j l h hle
    obtain ⟨fuel2, rfl⟩ : ∃ k, fuel' = k + 1 := ⟨fuel' - 1, by omega⟩
    have hle2 : fuel ≤ fuel2 := by omega
    cases j with
    | func f =>
      simp only [topoAux] at h ⊢
      rcases hin : topoAux cg fuel (Job.edges (edgesOf cg f)) with _ | ts
      · rw [hin] at h; exact Option.noConfusion h
      · rw [hin] at h
        rw [ih fuel2 (Job.edges (edgesOf cg f)) ts hin hle2]
        exact h
    | edges es =>
      cases es with
      | nil => exact h
      | cons e rest =>
        obtain ⟨c, g⟩ := e
        simp only [topoAux] at h ⊢
        rcases h1 : topoAux cg fuel (Job.func g) with _ | l1
        · rw [h1] at h; exact Option.noConfusion h
        · rw [h1] at h
          rcases h2 : topoAux cg fuel (Job.edges rest) with _ | l2
          · rw [h2] at h; exact Option.noConfusion h
          · rw [h2] at h
            rw [ih fuel2 (Job.func g) l1 h1 hle2,
              ih fuel2 (Job.edges rest) l2 h2 hle2]
            exact h

theorem topoRoots_mono (cg : CallGraph) :
    ∀ (rs : List Nat) (fuel fuel' : Nat) (l : List Nat),
      topoRoots cg fuel rs = some l → fuel ≤ fuel' →
      topoRoots cg fuel' rs = some l := by
  intro rs
  induction rs with
  | nil => intro fuel fuel' l h _; exact h
  | cons r rest ih =>
    intro fuel fuel' l h hle
    simp only [topoRoots] at h ⊢
    rcases h1 : topoAux cg fuel (Job.func r) with _ | l1
    · rw [h1] at h; exact Option.noConfusion h
    · rw [h1] at h
      rcases h2 : topoRoots cg fuel rest with _ | l2
      · rw [h2] at h; exact Option.noConfusion h
      · rw [h2] at h
        rw [topoAux_mono cg fuel fuel' (Job.func r) l1 h1 hle,
          ih fuel fuel' l2 h2 hle]
        exact h

/-- C10: when the callee relation is well-founded — the standard
rendering of "the call-edge relation is acyclic" — the recursion of
`doTopologicalSort` terminates: some fuel suffices for
`topologicalSort` to return a result, even though the helper keeps no
visited set and re-enters shared callees once per path. -/
theorem topologicalSort_terminates_of_acyclic (cg : CallGraph)
    (hwf : WellFounded (fun g f => step cg f g)) :
    ∃ fuel sorted, topologicalSort cg fuel = some sorted := by
  have hfunc : ∀ f, ∃ fuel l, topoAux cg fuel (Job.func f) = some l := by
    intro f
    refine @WellFounded.induction Nat (fun g f => step cg f g) hwf
      (fun f => ∃ fuel l, topoAux cg fuel (Job.func f) = some l) f ?_
    intro f ihf
    have hedges : ∀ es, (∀ e ∈ es, e ∈ edgesOf cg f) →
        ∃ fuel l, topoAux cg fuel (Job.edges es) = some l := by
      intro es
      induction es with
      | nil => intro _; exact ⟨1, [], rfl⟩
      | cons e rest ihe =>
        intro hsub
        obtain ⟨c, g⟩ := e
        obtain ⟨f1, l1, h1⟩ :=
          ihf g ⟨c, hsub (c, g) (List.mem_cons_self _ _)⟩
        obtain ⟨f2, l2, h2⟩ := ihe (fun e he => hsub e
          (List.mem_cons_of_mem _ he))
        refine ⟨max f1 f2 + 1, l1 ++ l2, ?_⟩
        simp only [topoAux]
        rw [topoAux_mono cg f1 (max f1 f2) (Job.func g) l1 h1
          (le_max_left f1 f2),
          topoAux_mono cg f2 (max f1 f2) (Job.edges rest) l2 h2
            (le_max_right f1 f2)]
    obtain ⟨fe, le, he⟩ := hedges (edgesOf cg f) (fun e h => h)
    exact ⟨fe + 1, f :: le, by simp only [topoAux]; rw [he]; rfl⟩
  have hroots : ∀ rs : List Nat, ∃ fuel l, topoRoots cg fuel rs = some l := by
    intro rs
    induction rs with
    | nil => exact ⟨1, [], rfl⟩
    | cons r rest ihr =>
      obtain ⟨f1, l1, h1⟩ := hfunc r
      obtain ⟨f2, l2, h2⟩ := ihr
      refine ⟨max f1 f2, l1 ++ l2, ?_⟩
      simp only [topoRoots]
      rw [topoAux_mono cg f1 (max f1 f2) (Job.func r) l1 h1
        (le_max_left f1 f2),
        topoRoots_mono cg rest f2 (max f1 f2) l2 h2 (le_max_right f1 f2)]
  obtain ⟨fuel, funcs, h⟩ := hroots cg.roots
  exact ⟨fuel, dedupFrom [] funcs.reverse, by rw [topologicalSort, h]; rfl⟩

theorem topologicalSort_terminates_of_acyclic_witness :
    ∃ fuel sorted,
      topologicalSort (CallGraph.mk [(0, [(5, 1)]), (1, [])] [0]) fuel =
        some sorted :=
  topologicalSort_terminates_of_acyclic
    (CallGraph.mk [(0, [(5, 1)]), (1, [])] [0])
    (by
      have key : ∀ fx cx gx,
          (cx, gx) ∈ edgesOf (CallGraph.mk [(0, [(5, 1)]), (1, [])] [0]) fx →
            fx = 0 ∧ gx = 1 := by
        intro fx cx gx hmem
        rw [edgesOf] at hmem
        by_cases f0 : fx = 0
        · subst f0
          simp [List.lookup] at hmem
          exact ⟨rfl, hmem.2⟩
        · by_cases f1 : fx = 1
          · subst f1
            simp [List.lookup] at hmem
          · have h0 : (fx == 0) = false := by simp [f0]
            have h1' : (fx == 1) = false := by simp [f1]
            simp [List.lookup, h0, h1'] at hmem
      apply Subrelation.wf (r := InvImage Nat.lt (fun n => 1 - n))
      · intro g f hgf
        obtain ⟨c, hc⟩ := hgf
        obtain ⟨hf0, hg1⟩ := key f c g hc
        subst hf0
        subst hg1
        show (1 : Nat) - 1 < 1 - 0
        decide
      · exact InvImage.wf (fun n => 1 - n) (Nat.lt_wfRel.wf))

end TritonAnalysis
